import Mathlib

/-!
Verification of the ROUGE scoring core (`multilingual_rouge/rouge_scorer.py`).

The algorithmic core of the repository is embedded shallowly:

* tokens are strings; token sequences are `List Token`;
* the Python `collections.Counter` objects used as token/n-gram budgets are
  represented by plain lists: the count of `t` is `List.count t l`, a
  decrement is `List.erase`, and the total of all counts is `List.length`;
* floating point division is modelled exactly over `ℚ`;
* the two nested while/for loops of the LCS machinery (`_lcs_table` and
  `_backtrack_norec`) are embedded as fuel-indexed structural recursions
  (the fuel `i + j` is provably sufficient, see `lcsTableFuel_congr`);
* the fallible dispatch in `RougeScorer.score` returns `Except String`:
  a raised `ValueError` is `Except.error`, and an aborted call returns no
  partial result map;
* the external collaborators (`tokenization_wrapper.tokenize`, the stemmers
  and tokenizers) are not part of the scoring core source; following the
  spec they are modelled as an opaque parameter `tokWrap` taking the text
  and the optional configured tokenizer.
-/

/-- A token: an opaque, comparable unit of text produced externally. -/
abbrev Token := String

/-- The result triple of a scorer: `scoring.Score(precision, recall, fmeasure)`.
Modelled from the spec: the `scoring` module is not under `src/`; §3 of the
spec describes `Score` as an immutable triple of reals, embedded over `ℚ`. -/
structure Score where
  precision : ℚ
  «recall» : ℚ
  fmeasure : ℚ
  deriving DecidableEq, Repr

/-- Modelled from the spec: `scoring.fmeasure` is not under `src/`; §3 of the
spec defines the harmonic rule as 0 whenever `precision + recall` is 0 and
`2·P·R/(P+R)` otherwise. -/
def fmeasure (p r : ℚ) : ℚ :=
  if 0 < p + r then 2 * p * r / (p + r) else 0

/-- `_create_ngrams(tokens, n)`: the multiset of windows of length `n`, listed
at every valid start offset.  `range(len(tokens) - n + 1)` over `ℤ` is empty
for `len(tokens) < n`, which over `ℕ` is `List.range (tokens.length + 1 - n)`
for `n ≥ 1`.  The Python `Counter` of windows is represented by the list of
windows itself. -/
def createNgrams (tokens : List Token) (n : ℕ) : List (List Token) :=
  (List.range (tokens.length + 1 - n)).map (fun i => (tokens.drop i).take n)

/-- `_score_ngrams(target_ngrams, prediction_ngrams)`.  The iteration over the
keys of the target `Counter` is the iteration over `target.dedup`; the sum of
the values of a `Counter` is the corresponding `dedup`-indexed sum of counts. -/
def scoreNgrams (target prediction : List (List Token)) : Score :=
  let inter := (target.dedup.map
    (fun g => min (target.count g) (prediction.count g))).sum
  let targetCount := (target.dedup.map (fun g => target.count g)).sum
  let predictionCount := (prediction.dedup.map (fun g => prediction.count g)).sum
  let precision : ℚ := (inter : ℚ) / (max predictionCount 1 : ℕ)
  let «recall» : ℚ := (inter : ℚ) / (max targetCount 1 : ℕ)
  ⟨precision, «recall», fmeasure precision «recall»⟩

/-- The cells of the `_lcs_table(ref, can)` dynamic-programming table, as a
fuel-indexed recursion: `lcsTableFuel ref can fuel i j` is `table[i][j]`
whenever `i + j ≤ fuel` (fuel irrelevance is `lcsTableFuel_congr`). -/
def lcsTableFuel (ref can : List Token) : ℕ → ℕ → ℕ → ℕ
  | 0, _, _ => 0
  | fuel + 1, i, j =>
    match i, j with
    | 0, _ => 0
    | _ + 1, 0 => 0
    | i + 1, j + 1 =>
      if ref.getD i "" = can.getD j "" then
        lcsTableFuel ref can fuel i j + 1
      else
        max (lcsTableFuel ref can fuel i (j + 1)) (lcsTableFuel ref can fuel (i + 1) j)

/-- `table[i][j]` of `_lcs_table(ref, can)`. -/
def lcsTable (ref can : List Token) (i j : ℕ) : ℕ :=
  lcsTableFuel ref can (i + j) i j

/-- `_score_lcs(target_tokens, prediction_tokens)`. -/
def scoreLcs (target_tokens prediction_tokens : List Token) : Score :=
  if target_tokens = [] ∨ prediction_tokens = [] then ⟨0, 0, 0⟩
  else
    let lcs_length := lcsTable target_tokens prediction_tokens
      target_tokens.length prediction_tokens.length
    let precision : ℚ := (lcs_length : ℚ) / (prediction_tokens.length : ℕ)
    let «recall» : ℚ := (lcs_length : ℚ) / (target_tokens.length : ℕ)
    ⟨precision, «recall», fmeasure precision «recall»⟩

/-- The while loop of `_backtrack_norec(t, ref, can)`, as a fuel-indexed
recursion starting from `(i, j)`.  The Python list built by `insert(0, i-1)`
during the backward walk is the ascending list obtained by appending the
current match after the indices collected deeper in the walk.  The move
condition `t[i][j-1] > t[i-1][j]` at Python state `(i, j) = (i'+1, j'+1)`
reads `t (i'+1) j' > t i' (j'+1)`. -/
def backtrackFuel (t : ℕ → ℕ → ℕ) (ref can : List Token) : ℕ → ℕ → ℕ → List ℕ
  | 0, _, _ => []
  | fuel + 1, i, j =>
    match i, j with
    | 0, _ => []
    | _ + 1, 0 => []
    | i + 1, j + 1 =>
      if ref.getD i "" = can.getD j "" then
        backtrackFuel t ref can fuel i j ++ [i]
      else if t i (j + 1) < t (i + 1) j then
        backtrackFuel t ref can fuel (i + 1) j
      else
        backtrackFuel t ref can fuel i (j + 1)

/-- `_backtrack_norec(t, ref, can)`: the walk starts at `(len(ref), len(can))`. -/
def backtrackNorec (t : ℕ → ℕ → ℕ) (ref can : List Token) : List ℕ :=
  backtrackFuel t ref can (ref.length + can.length) ref.length can.length

/-- `lcs_ind(ref, can)`: builds the table then backtracks. -/
def lcsInd (ref can : List Token) : List ℕ :=
  backtrackNorec (lcsTable ref can) ref can

/-- `_find_union(lcs_list)`: `sorted(list(set().union(*lcs_list)))`, i.e. the
ascending, duplicate-free list of all indices occurring in any member. -/
def findUnion (lcs_list : List (List ℕ)) : List ℕ :=
  List.insertionSort (· ≤ ·) lcs_list.flatten.dedup

/-- `_union_lcs(ref, c_list)`. -/
def unionLcs (ref : List Token) (c_list : List (List Token)) : List Token :=
  (findUnion (c_list.map (fun c => lcsInd ref c))).map (fun i => ref.getD i "")

/-- The inner hit loop of `_summary_level_lcs`: walks the tokens of one union
LCS, counting a hit and decrementing both budgets when both are positive.
Budgets are `Counter`s represented as lists (count = `List.count`,
decrement = `List.erase`). Returns the hits and the two updated budgets. -/
def countHits : List Token → List Token → List Token → ℕ × List Token × List Token
  | [], cntC, cntR => (0, cntC, cntR)
  | t :: ts, cntC, cntR =>
    if 0 < cntC.count t ∧ 0 < cntR.count t then
      let res := countHits ts (cntC.erase t) (cntR.erase t)
      (res.1 + 1, res.2.1, res.2.2)
    else
      countHits ts cntC cntR

/-- The outer loop of `_summary_level_lcs`: one `countHits` pass per reference
sentence's union LCS, threading the budgets. -/
def outerHits : List (List Token) → List Token → List Token → ℕ × List Token × List Token
  | [], cntC, cntR => (0, cntC, cntR)
  | l :: ls, cntC, cntR =>
    let res := countHits l cntC cntR
    let rest := outerHits ls res.2.1 res.2.2
    (res.1 + rest.1, rest.2.1, rest.2.2)

/-- `_summary_level_lcs(ref_sent, can_sent)`. -/
def summaryLevelLcs (ref_sent can_sent : List (List Token)) : Score :=
  if ref_sent = [] ∨ can_sent = [] then ⟨0, 0, 0⟩
  else
    let m := (ref_sent.map List.length).sum
    let n := (can_sent.map List.length).sum
    if n = 0 ∨ m = 0 then ⟨0, 0, 0⟩
    else
      let hits := (outerHits (ref_sent.map (fun r => unionLcs r can_sent))
        can_sent.flatten ref_sent.flatten).1
      let «recall» : ℚ := (hits : ℚ) / (m : ℕ)
      let precision : ℚ := (hits : ℚ) / (n : ℕ)
      ⟨precision, «recall», fmeasure precision «recall»⟩

/-- `text.split("\n")` on the character list of a Python string. -/
def splitLines : List Char → List (List Char)
  | [] => [[]]
  | c :: rest =>
    if c = '\n' then [] :: splitLines rest
    else
      match splitLines rest with
      | [] => [[c]]
      | l :: ls => (c :: l) :: ls

/-- `get_sents(text)` from the `rougeLsum` branch of `RougeScorer.score`:
split at newlines and drop empty lines. -/
def getSents (text : String) : List String :=
  ((splitLines text.data).map String.mk).filter (fun x => x.length ≠ 0)

/-- `re.match(r"rouge[0-9]$", rouge_type)`: anchored at the start, one digit,
and `$` also matches just before one trailing newline. -/
def matchRougeN (s : String) : Bool :=
  (s.data.take 5 == "rouge".data) &&
    match s.data.drop 5 with
    | [d] => d.isDigit
    | [d, c] => d.isDigit && (c == '\n')
    | _ => false

/-- `int(rouge_type[5:])` for a string accepted by `matchRougeN` (Python's
`int` ignores the trailing newline). -/
def rougeNVal (s : String) : ℕ :=
  match s.data.drop 5 with
  | d :: _ => d.toNat - '0'.toNat
  | [] => 0

/-- One iteration of the dispatch loop in `RougeScorer.score` for a single
requested variant name.  `tokWrap` stands for the external
`tokenize.tokenize` with its optional tokenizer argument; the `rougeLsum`
branch calls it on each sentence with `none`, mirroring
`tokenize.tokenize(s, self._stemmer)` which passes no tokenizer. -/
def computeRougeType (tokWrap : Option (String → List Token) → String → List Token)
    (target prediction : String)
    (target_tokens prediction_tokens : List Token) (rouge_type : String) :
    Except String Score :=
  if rouge_type = "rougeL" then
    .ok (scoreLcs target_tokens prediction_tokens)
  else if rouge_type = "rougeLsum" then
    .ok (summaryLevelLcs ((getSents target).map (fun s => tokWrap none s))
      ((getSents prediction).map (fun s => tokWrap none s)))
  else if matchRougeN rouge_type then
    if rougeNVal rouge_type ≤ 0 then
      .error (String.append "rougen requires positive n: " rouge_type)
    else
      .ok (scoreNgrams (createNgrams target_tokens (rougeNVal rouge_type))
        (createNgrams prediction_tokens (rougeNVal rouge_type)))
  else
    .error (String.append "Invalid rouge type: " rouge_type)

/-- The `for rouge_type in self.rouge_types` loop of `RougeScorer.score`: a
raised `ValueError` aborts the whole call, so no partial map is produced. -/
def scoreLoop (tokWrap : Option (String → List Token) → String → List Token)
    (target prediction : String) (target_tokens prediction_tokens : List Token) :
    List String → Except String (List (String × Score))
  | [] => .ok []
  | rt :: rest =>
    match computeRougeType tokWrap target prediction target_tokens prediction_tokens rt with
    | .error e => .error e
    | .ok s =>
      match scoreLoop tokWrap target prediction target_tokens prediction_tokens rest with
      | .error e => .error e
      | .ok r => .ok ((rt, s) :: r)

/-- `RougeScorer.score(target, prediction)`.  The full texts are tokenized
once up front with the configured tokenizer
(`tokenize.tokenize(target, self._stemmer, self._tokenizer)`). -/
def score (tokWrap : Option (String → List Token) → String → List Token)
    (tokenizer : Option (String → List Token))
    (rouge_types : List String) (target prediction : String) :
    Except String (List (String × Score)) :=
  scoreLoop tokWrap target prediction (tokWrap tokenizer target)
    (tokWrap tokenizer prediction) rouge_types

/-- Spec §4.5 step 3: the union LCS index set of one reference sentence,
stated set-theoretically — the `Finset` union of the per-candidate LCS index
sets, listed in ascending order. -/
def specUnionIndices (ref : List Token) (c_list : List (List Token)) : List ℕ :=
  Finset.sort (· ≤ ·) ((c_list.map (fun c => (lcsInd ref c).toFinset)).foldr (· ∪ ·) ∅)

/-- Spec §4.5 step 3: tokens of the reference sentence at its union LCS
index set. -/
def specUnionLcs (ref : List Token) (c_list : List (List Token)) : List Token :=
  (specUnionIndices ref c_list).map (fun i => ref.getD i "")

/-- Spec §4.5 step 4: walk tokens in order; a token is a hit exactly when the
candidate and reference frequency budgets are both still positive, and a hit
decrements both budgets by one.  Budgets are plain frequency functions. -/
def specBudgetHits : List Token → (Token → ℕ) → (Token → ℕ) → ℕ
  | [], _, _ => 0
  | t :: ts, cntC, cntR =>
    if 0 < cntC t ∧ 0 < cntR t then
      specBudgetHits ts (fun x => if x = t then cntC t - 1 else cntC x)
        (fun x => if x = t then cntR t - 1 else cntR x) + 1
    else
      specBudgetHits ts cntC cntR

/-- Spec §4.5 steps 2–4: the total hit count, processing every reference
sentence's union LCS in order against the shared token-frequency budgets
built over all reference tokens and all candidate tokens. -/
def specSummaryHits (ref_sent can_sent : List (List Token)) : ℕ :=
  specBudgetHits ((ref_sent.map (fun r => specUnionLcs r can_sent)).flatten)
    (fun tok => can_sent.flatten.count tok) (fun tok => ref_sent.flatten.count tok)

/-- The textbook longest-common-subsequence length recursion, used as the
specification-side meaning of the DP table (`lcsLen_eq_max` below shows it is
the maximum length of a common subsequence). -/
def lcsLen : List Token → List Token → ℕ
  | [], _ => 0
  | _ :: _, [] => 0
  | a :: as, b :: bs =>
    if a = b then lcsLen as bs + 1
    else max (lcsLen (a :: as) bs) (lcsLen as (b :: bs))

theorem lcsTableFuel_zero_left (ref can : List Token) (f j : ℕ) :
    lcsTableFuel ref can f 0 j = 0 := by
  cases f <;> rfl

theorem lcsTableFuel_zero_right (ref can : List Token) (f i : ℕ) :
    lcsTableFuel ref can f i 0 = 0 := by
  cases f with
  | zero => rfl
  | succ f => cases i <;> rfl

theorem lcsTableFuel_succ (ref can : List Token) (f i j : ℕ) :
    lcsTableFuel ref can (f + 1) (i + 1) (j + 1) =
      if ref.getD i "" = can.getD j "" then lcsTableFuel ref can f i j + 1
      else max (lcsTableFuel ref can f i (j + 1)) (lcsTableFuel ref can f (i + 1) j) :=
  rfl

theorem lcsTableFuel_congr (ref can : List Token) :
    ∀ f g i j : ℕ, i + j ≤ f → i + j ≤ g →
      lcsTableFuel ref can f i j = lcsTableFuel ref can g i j := by
  intro f
  induction f with
  | zero =>
    intro g i j hf _
    have hi : i = 0 := by omega
    subst hi
    rw [lcsTableFuel_zero_left, lcsTableFuel_zero_left]
  | succ f ih =>
    intro g i j hf hg
    cases i with
    | zero => rw [lcsTableFuel_zero_left, lcsTableFuel_zero_left]
    | succ i =>
      cases j with
      | zero => rw [lcsTableFuel_zero_right, lcsTableFuel_zero_right]
      | succ j =>
        cases g with
        | zero => omega
        | succ g =>
          rw [lcsTableFuel_succ, lcsTableFuel_succ]
          by_cases h : ref.getD i "" = can.getD j ""
          · rw [if_pos h, if_pos h, ih g i j (by omega) (by omega)]
          · rw [if_neg h, if_neg h, ih g i (j + 1) (by omega) (by omega),
              ih g (i + 1) j (by omega) (by omega)]

theorem lcsTable_zero_left (ref can : List Token) (j : ℕ) :
    lcsTable ref can 0 j = 0 :=
  lcsTableFuel_zero_left ref can _ j

theorem lcsTable_zero_right (ref can : List Token) (i : ℕ) :
    lcsTable ref can i 0 = 0 :=
  lcsTableFuel_zero_right ref can _ i

theorem lcsTable_succ_succ (ref can : List Token) (i j : ℕ) :
    lcsTable ref can (i + 1) (j + 1) =
      if ref.getD i "" = can.getD j "" then lcsTable ref can i j + 1
      else max (lcsTable ref can i (j + 1)) (lcsTable ref can (i + 1) j) := by
  show lcsTableFuel ref can (i + 1 + j + 1) (i + 1) (j + 1) = _
  rw [lcsTableFuel_succ]
  by_cases h : ref.getD i "" = can.getD j ""
  · rw [if_pos h, if_pos h,
      lcsTableFuel_congr ref can (i + 1 + j) (i + j) i j (by omega) (by omega)]
    rfl
  · rw [if_neg h, if_neg h,
      lcsTableFuel_congr ref can (i + 1 + j) (i + (j + 1)) i (j + 1) (by omega) (by omega)]
    rfl

theorem backtrackFuel_zero_left (t : ℕ → ℕ → ℕ) (ref can : List Token) (f j : ℕ) :
    backtrackFuel t ref can f 0 j = [] := by
  cases f <;> rfl

theorem backtrackFuel_zero_right (t : ℕ → ℕ → ℕ) (ref can : List Token) (f i : ℕ) :
    backtrackFuel t ref can f i 0 = [] := by
  cases f with
  | zero => rfl
  | succ f => cases i <;> rfl

theorem backtrackFuel_succ (t : ℕ → ℕ → ℕ) (ref can : List Token) (f i j : ℕ) :
    backtrackFuel t ref can (f + 1) (i + 1) (j + 1) =
      if ref.getD i "" = can.getD j "" then backtrackFuel t ref can f i j ++ [i]
      else if t i (j + 1) < t (i + 1) j then backtrackFuel t ref can f (i + 1) j
      else backtrackFuel t ref can f i (j + 1) :=
  rfl

open scoped List

theorem take_succ_of_lt {l : List Token} {i : ℕ} (h : i < l.length) :
    l.take (i + 1) = l.take i ++ [l.getD i ""] := by
  rw [List.take_succ]
  congr 1
  rw [List.getElem?_eq_getElem h]
  simp [List.getD, List.getElem?_eq_getElem h]

theorem take_sublist_succ {α : Type} (l : List α) (j : ℕ) :
    l.take j <+ l.take (j + 1) := by
  induction l generalizing j with
  | nil => simp
  | cons a l ih =>
    cases j with
    | zero => exact List.nil_sublist _
    | succ j => exact List.Sublist.cons₂ a (ih j)

theorem backtrackFuel_spec (ref can : List Token) :
    ∀ fuel i j : ℕ, i + j ≤ fuel →
      (∀ x ∈ backtrackFuel (lcsTable ref can) ref can fuel i j, x < i) ∧
      (backtrackFuel (lcsTable ref can) ref can fuel i j).Pairwise (· < ·) ∧
      (backtrackFuel (lcsTable ref can) ref can fuel i j).length = lcsTable ref can i j ∧
      (i ≤ ref.length → j ≤ can.length →
        ((backtrackFuel (lcsTable ref can) ref can fuel i j).map
            (fun k => ref.getD k "")) <+ ref.take i ∧
        ((backtrackFuel (lcsTable ref can) ref can fuel i j).map
            (fun k => ref.getD k "")) <+ can.take j) := by
  intro fuel
  induction fuel with
  | zero =>
    intro i j hf
    have hi : i = 0 := by omega
    subst hi
    rw [backtrackFuel_zero_left]
    simp [lcsTable_zero_left]
  | succ fuel ih =>
    intro i j hf
    cases i with
    | zero =>
      rw [backtrackFuel_zero_left]
      simp [lcsTable_zero_left]
    | succ i =>
      cases j with
      | zero =>
        rw [backtrackFuel_zero_right]
        simp [lcsTable_zero_right]
      | succ j =>
        rw [backtrackFuel_succ, lcsTable_succ_succ]
        by_cases h : ref.getD i "" = can.getD j ""
        · rw [if_pos h, if_pos h]
          obtain ⟨ihmem, ihpair, ihlen, ihsub⟩ := ih i j (by omega)
          refine ⟨?_, ?_, ?_, ?_⟩
          · intro x hx
            rcases List.mem_append.1 hx with hx | hx
            · exact Nat.lt_succ_of_lt (ihmem x hx)
            · simp only [List.mem_singleton] at hx
              omega
          · rw [List.pairwise_append]
            exact ⟨ihpair, List.pairwise_singleton _ _,
              fun a ha b hb => by simp only [List.mem_singleton] at hb; subst hb; exact ihmem a ha⟩
          · simp [ihlen]
          · intro hiR hjC
            obtain ⟨hsubr, hsubc⟩ := ihsub (by omega) (by omega)
            constructor
            · rw [List.map_append, take_succ_of_lt (by omega)]
              exact List.Sublist.append hsubr (List.Sublist.refl _)
            · rw [List.map_append, take_succ_of_lt (show j < can.length by omega)]
              simp only [List.map_cons, List.map_nil]
              rw [h]
              exact List.Sublist.append hsubc (List.Sublist.refl _)
        · rw [if_neg h, if_neg h]
          by_cases hmv : lcsTable ref can i (j + 1) < lcsTable ref can (i + 1) j
          · rw [if_pos hmv]
            obtain ⟨ihmem, ihpair, ihlen, ihsub⟩ := ih (i + 1) j (by omega)
            refine ⟨ihmem, ihpair, ?_, ?_⟩
            · rw [ihlen, Nat.max_eq_right (Nat.le_of_lt hmv)]
            · intro hiR hjC
              obtain ⟨hsubr, hsubc⟩ := ihsub hiR (by omega)
              exact ⟨hsubr, hsubc.trans (take_sublist_succ can j)⟩
          · rw [if_neg hmv]
            obtain ⟨ihmem, ihpair, ihlen, ihsub⟩ := ih i (j + 1) (by omega)
            refine ⟨fun x hx => Nat.lt_succ_of_lt (ihmem x hx), ihpair, ?_, ?_⟩
            · rw [ihlen, Nat.max_eq_left (by omega)]
            · intro hiR hjC
              obtain ⟨hsubr, hsubc⟩ := ihsub (by omega) hjC
              exact ⟨hsubr.trans (take_sublist_succ ref i), hsubc⟩

theorem lcsLen_nil_left (bs : List Token) : lcsLen [] bs = 0 := by
  simp [lcsLen]

theorem lcsLen_nil_right (as : List Token) : lcsLen as [] = 0 := by
  cases as <;> simp [lcsLen]

theorem lcsLen_cons_cons (a b : Token) (as bs : List Token) :
    lcsLen (a :: as) (b :: bs) =
      if a = b then lcsLen as bs + 1
      else max (lcsLen (a :: as) bs) (lcsLen as (b :: bs)) := by
  simp [lcsLen]

theorem sublist_of_cons_sublist_cons {c : Token} {s l : List Token}
    (h : c :: s <+ c :: l) : s <+ l :=
  List.cons_sublist_cons.1 h

theorem sublist_of_cons_sublist {c : Token} {s l : List Token}
    (h : c :: s <+ l) : s <+ l :=
  (List.sublist_cons_self c s).trans h

theorem length_le_lcsLen :
    ∀ (n : ℕ) (as bs s : List Token), as.length + bs.length ≤ n →
      s <+ as → s <+ bs → s.length ≤ lcsLen as bs := by
  intro n
  induction n with
  | zero =>
    intro as bs s hn hsa _
    have ha : as = [] := by cases as <;> simp_all
    subst ha
    rw [List.sublist_nil.1 hsa]
    simp
  | succ n ih =>
    intro as bs s hn hsa hsb
    cases as with
    | nil =>
      rw [List.sublist_nil.1 hsa]
      simp
    | cons a as =>
      cases bs with
      | nil =>
        rw [List.sublist_nil.1 hsb]
        simp
      | cons b bs =>
        cases s with
        | nil => simp
        | cons c s =>
          simp only [List.length_cons] at hn
          rw [lcsLen_cons_cons]
          by_cases hab : a = b
          · rw [if_pos hab]
            by_cases hca : c = a
            · subst hca
              have h1 : s <+ as := sublist_of_cons_sublist_cons hsa
              have h2 : s <+ bs := sublist_of_cons_sublist_cons (hab ▸ hsb)
              have := ih as bs s (by omega) h1 h2
              simp only [List.length_cons]
              omega
            · have h1 : c :: s <+ as := by
                rcases List.sublist_cons_iff.1 hsa with h | ⟨r, hr, _⟩
                · exact h
                · exact absurd (List.cons.injEq c s a r ▸ hr).1 hca
              have h2 : c :: s <+ bs := by
                rcases List.sublist_cons_iff.1 hsb with h | ⟨r, hr, _⟩
                · exact h
                · exact absurd (List.cons.injEq c s b r ▸ hr).1 (hab ▸ hca)
              have := ih as bs (c :: s) (by omega) h1 h2
              omega
          · rw [if_neg hab]
            by_cases hca : c = a
            · have h2 : c :: s <+ bs := by
                rcases List.sublist_cons_iff.1 hsb with h | ⟨r, hr, _⟩
                · exact h
                · exact absurd (List.cons.injEq c s b r ▸ hr).1 (hca ▸ hab)
              have := ih (a :: as) bs (c :: s) (by simp; omega) hsa h2
              have hle := Nat.le_max_left (lcsLen (a :: as) bs) (lcsLen as (b :: bs))
              omega
            · have h1 : c :: s <+ as := by
                rcases List.sublist_cons_iff.1 hsa with h | ⟨r, hr, _⟩
                · exact h
                · exact absurd (List.cons.injEq c s a r ▸ hr).1 hca
              have := ih as (b :: bs) (c :: s) (by simp; omega) h1 hsb
              have hle := Nat.le_max_right (lcsLen (a :: as) bs) (lcsLen as (b :: bs))
              omega

theorem reverse_take_succ {l : List Token} {i : ℕ} (h : i < l.length) :
    (l.take (i + 1)).reverse = l.getD i "" :: (l.take i).reverse := by
  rw [take_succ_of_lt h, List.reverse_append]
  rfl

theorem lcsTable_eq_lcsLen (ref can : List Token) :
    ∀ n i j : ℕ, i + j ≤ n → i ≤ ref.length → j ≤ can.length →
      lcsTable ref can i j = lcsLen (ref.take i).reverse (can.take j).reverse := by
  intro n
  induction n with
  | zero =>
    intro i j hn _ _
    have hi : i = 0 := by omega
    subst hi
    rw [lcsTable_zero_left]
    simp [lcsLen_nil_left]
  | succ n ih =>
    intro i j hn hi hj
    cases i with
    | zero =>
      rw [lcsTable_zero_left]
      simp [lcsLen_nil_left]
    | succ i =>
      cases j with
      | zero =>
        rw [lcsTable_zero_right]
        simp [lcsLen_nil_right]
      | succ j =>
        rw [lcsTable_succ_succ, reverse_take_succ (show i < ref.length by omega),
          reverse_take_succ (show j < can.length by omega), lcsLen_cons_cons]
        by_cases h : ref.getD i "" = can.getD j ""
        · rw [if_pos h, if_pos h, ih i j (by omega) (by omega) (by omega)]
        · rw [if_neg h, if_neg h,
            ih i (j + 1) (by omega) (by omega) hj,
            ih (i + 1) j (by omega) hi (by omega),
            reverse_take_succ (show i < ref.length by omega),
            reverse_take_succ (show j < can.length by omega),
            Nat.max_comm]

theorem lcsTable_full_eq_lcsLen (ref can : List Token) :
    lcsTable ref can ref.length can.length = lcsLen ref.reverse can.reverse := by
  rw [lcsTable_eq_lcsLen ref can (ref.length + can.length) ref.length can.length
    (Nat.le_refl _) (Nat.le_refl _) (Nat.le_refl _), List.take_length, List.take_length]

theorem common_subsequence_length_le (ref can s : List Token)
    (h1 : s <+ ref) (h2 : s <+ can) :
    s.length ≤ lcsTable ref can ref.length can.length := by
  rw [lcsTable_full_eq_lcsLen]
  have := length_le_lcsLen (ref.reverse.length + can.reverse.length)
    ref.reverse can.reverse s.reverse (Nat.le_refl _)
    (List.reverse_sublist.2 h1) (List.reverse_sublist.2 h2)
  simpa using this

theorem lcsInd_spec (ref can : List Token) :
    (∀ x ∈ lcsInd ref can, x < ref.length) ∧
    (lcsInd ref can).Pairwise (· < ·) ∧
    (lcsInd ref can).length = lcsTable ref can ref.length can.length ∧
    ((lcsInd ref can).map (fun k => ref.getD k "")) <+ ref ∧
    ((lcsInd ref can).map (fun k => ref.getD k "")) <+ can := by
  obtain ⟨hmem, hpair, hlen, hsub⟩ :=
    backtrackFuel_spec ref can (ref.length + can.length) ref.length can.length (Nat.le_refl _)
  obtain ⟨hsubr, hsubc⟩ := hsub (Nat.le_refl _) (Nat.le_refl _)
  rw [List.take_length] at hsubr hsubc
  exact ⟨hmem, hpair, hlen, hsubr, hsubc⟩

/-- C2: the LCS backtracker, walking from `(R, C)` toward `(0, 0)` with the
tie-break that decrements `i` when the "up" value is not strictly below the
"left" value, emits its reference indices in ascending order, duplicate-free,
all valid positions into the reference, and they identify one longest common
subsequence: the tokens at those indices form a common subsequence of the
reference and the candidate, their count equals `table[R][C]`, and no common
subsequence is longer. -/
theorem backtrack_norec_correct (ref can : List Token) :
    (lcsInd ref can).Pairwise (· < ·) ∧
    (∀ x ∈ lcsInd ref can, x < ref.length) ∧
    (lcsInd ref can).length = lcsTable ref can ref.length can.length ∧
    ((lcsInd ref can).map (fun k => ref.getD k "")) <+ ref ∧
    ((lcsInd ref can).map (fun k => ref.getD k "")) <+ can ∧
    (∀ s : List Token, s <+ ref → s <+ can → s.length ≤ (lcsInd ref can).length) := by
  obtain ⟨hmem, hpair, hlen, hsubr, hsubc⟩ := lcsInd_spec ref can
  refine ⟨hpair, hmem, hlen, hsubr, hsubc, fun s h1 h2 => ?_⟩
  rw [hlen]
  exact common_subsequence_length_le ref can s h1 h2

/-- Witness for C2 at a concrete input: `[a,d]` is a common subsequence of
`[a,b,d]` and `[a,c,d]`, so it is no longer than the backtracked LCS. -/
theorem backtrack_norec_correct_witness :
    (["a", "d"] : List Token).length ≤ (lcsInd ["a", "b", "d"] ["a", "c", "d"]).length :=
  (backtrack_norec_correct ["a", "b", "d"] ["a", "c", "d"]).2.2.2.2.2
    ["a", "d"] (by decide) (by decide)

/-- C4: the sentence-level LCS scorer short-circuits to `Score(0,0,0)` on an
empty side; on non-empty sides it returns `precision = lcs_length/C` and
`recall = lcs_length/R` where `lcs_length = table[R][C]`, the table satisfies
the standard recurrence with zero border row and column, and `table[R][C]`
is genuinely the longest-common-subsequence length (attained, and an upper
bound over all common subsequences). -/
theorem score_lcs_spec (target_tokens prediction_tokens : List Token) :
    (target_tokens = [] ∨ prediction_tokens = [] →
      scoreLcs target_tokens prediction_tokens = ⟨0, 0, 0⟩) ∧
    (target_tokens ≠ [] → prediction_tokens ≠ [] →
      scoreLcs target_tokens prediction_tokens =
        ⟨(lcsTable target_tokens prediction_tokens
            target_tokens.length prediction_tokens.length : ℚ) / (prediction_tokens.length : ℚ),
         (lcsTable target_tokens prediction_tokens
            target_tokens.length prediction_tokens.length : ℚ) / (target_tokens.length : ℚ),
         fmeasure
           ((lcsTable target_tokens prediction_tokens
              target_tokens.length prediction_tokens.length : ℚ) / (prediction_tokens.length : ℚ))
           ((lcsTable target_tokens prediction_tokens
              target_tokens.length prediction_tokens.length : ℚ) / (target_tokens.length : ℚ))⟩) ∧
    (∀ j, lcsTable target_tokens prediction_tokens 0 j = 0) ∧
    (∀ i, lcsTable target_tokens prediction_tokens i 0 = 0) ∧
    (∀ i j, i < target_tokens.length → j < prediction_tokens.length →
      lcsTable target_tokens prediction_tokens (i + 1) (j + 1) =
        if target_tokens.getD i "" = prediction_tokens.getD j "" then
          lcsTable target_tokens prediction_tokens i j + 1
        else
          max (lcsTable target_tokens prediction_tokens i (j + 1))
            (lcsTable target_tokens prediction_tokens (i + 1) j)) ∧
    (∃ s : List Token, s <+ target_tokens ∧ s <+ prediction_tokens ∧
      s.length = lcsTable target_tokens prediction_tokens
        target_tokens.length prediction_tokens.length) ∧
    (∀ s : List Token, s <+ target_tokens → s <+ prediction_tokens →
      s.length ≤ lcsTable target_tokens prediction_tokens
        target_tokens.length prediction_tokens.length) := by
  refine ⟨?_, ?_, fun j => lcsTable_zero_left _ _ j, fun i => lcsTable_zero_right _ _ i,
    fun i j _ _ => lcsTable_succ_succ _ _ i j, ?_, ?_⟩
  · intro h
    rw [scoreLcs, if_pos h]
  · intro h1 h2
    rw [scoreLcs, if_neg (by tauto)]
  · obtain ⟨hmem, hpair, hlen, hsubr, hsubc⟩ := lcsInd_spec target_tokens prediction_tokens
    refine ⟨(lcsInd target_tokens prediction_tokens).map (fun k => target_tokens.getD k ""),
      hsubr, hsubc, ?_⟩
    rw [List.length_map, hlen]
  · exact common_subsequence_length_le target_tokens prediction_tokens

/-- Witness for C4 at concrete non-empty inputs. -/
theorem score_lcs_spec_witness :
    scoreLcs ["a", "b", "c", "d"] ["a", "c", "b", "d"] =
      ⟨(lcsTable ["a", "b", "c", "d"] ["a", "c", "b", "d"] 4 4 : ℚ) / (4 : ℚ),
       (lcsTable ["a", "b", "c", "d"] ["a", "c", "b", "d"] 4 4 : ℚ) / (4 : ℚ),
       fmeasure ((lcsTable ["a", "b", "c", "d"] ["a", "c", "b", "d"] 4 4 : ℚ) / (4 : ℚ))
         ((lcsTable ["a", "b", "c", "d"] ["a", "c", "b", "d"] 4 4 : ℚ) / (4 : ℚ))⟩ :=
  (score_lcs_spec ["a", "b", "c", "d"] ["a", "c", "b", "d"]).2.1 (by decide) (by decide)

theorem toFinset_sum_eq_dedup_map_sum {α : Type} [DecidableEq α] (l : List α) (f : α → ℕ) :
    ∑ g ∈ l.toFinset, f g = (l.dedup.map f).sum := by
  induction l with
  | nil => simp
  | cons a l ih =>
    by_cases h : a ∈ l
    · rw [List.toFinset_cons, Finset.insert_eq_self.2 (List.mem_toFinset.2 h),
        List.dedup_cons_of_mem h, ih]
    · rw [List.toFinset_cons, Finset.sum_insert (by simp [h]),
        List.dedup_cons_of_not_mem h, List.map_cons, List.sum_cons, ih]

theorem count_beq_instance {α : Type} [DecidableEq α] [BEq α] [LawfulBEq α]
    (a : α) (l : List α) :
    l.count a = @List.count α instBEqOfDecidableEq a l := by
  induction l with
  | nil => rfl
  | cons b l ih =>
    rw [List.count_cons, @List.count_cons α instBEqOfDecidableEq, ih]
    by_cases h : b = a <;> simp [h]

theorem sum_map_count_dedup_len {α : Type} [DecidableEq α] [BEq α] [LawfulBEq α]
    (l : List α) :
    (l.dedup.map (fun g => l.count g)).sum = l.length := by
  simp only [count_beq_instance]
  exact List.sum_map_count_dedup_eq_length l

/-- C3: the n-gram scorer returns
`precision = intersection / max(total_prediction_count, 1)` and
`recall = intersection / max(total_target_count, 1)`, where the intersection
sums `min(target count, prediction count)` over the target's n-gram universe;
n-grams present only in the prediction contribute nothing (extending the
universe by the prediction's n-grams leaves the sum unchanged), and an empty
side gives `Score(0,0,0)` rather than a division error. -/
theorem score_ngrams_spec (target prediction : List (List Token)) :
    (scoreNgrams target prediction).precision =
      ((∑ g ∈ target.toFinset, min (target.count g) (prediction.count g) : ℕ) : ℚ) /
        ((max prediction.length 1 : ℕ) : ℚ) ∧
    (scoreNgrams target prediction).«recall» =
      ((∑ g ∈ target.toFinset, min (target.count g) (prediction.count g) : ℕ) : ℚ) /
        ((max target.length 1 : ℕ) : ℚ) ∧
    (∑ g ∈ target.toFinset, min (target.count g) (prediction.count g)) =
      (∑ g ∈ target.toFinset ∪ prediction.toFinset,
        min (target.count g) (prediction.count g)) ∧
    (target = [] → scoreNgrams target prediction = ⟨0, 0, 0⟩) ∧
    (prediction = [] → scoreNgrams target prediction = ⟨0, 0, 0⟩) := by
  refine ⟨?_, ?_, ?_, ?_, ?_⟩
  · simp only [scoreNgrams]
    rw [toFinset_sum_eq_dedup_map_sum, sum_map_count_dedup_len]
  · simp only [scoreNgrams]
    rw [toFinset_sum_eq_dedup_map_sum, sum_map_count_dedup_len]
  · refine Finset.sum_subset Finset.subset_union_left (fun g _ hg => ?_)
    rw [List.count_eq_zero.2 (fun hmem => hg (List.mem_toFinset.2 hmem))]
    exact Nat.zero_min _
  · intro h
    subst h
    simp [scoreNgrams, fmeasure]
  · intro h
    subst h
    have hz : ((target.dedup.map (fun g => min (target.count g) (List.count g []))).sum) = 0 :=
      List.sum_eq_zero (by simp)
    simp [scoreNgrams, fmeasure, hz]

/-- Witness for C3: the empty-input clauses at a concrete input. -/
theorem score_ngrams_spec_witness :
    scoreNgrams [] [["x"]] = ⟨0, 0, 0⟩ :=
  (score_ngrams_spec [] [["x"]]).2.2.2.1 rfl

/-- C10: for `n ≥ 1` the n-gram multiset has total count
`len - n + 1` when `len ≥ n` and `0` otherwise; the sum of the counter's
values equals this total, and these totals are exactly the unclamped
denominators the n-gram scorer divides by (clamped to at least 1). -/
theorem create_ngrams_totals (tokens tokens2 : List Token) (n : ℕ) (h : 1 ≤ n) :
    ((createNgrams tokens n).length =
      if n ≤ tokens.length then tokens.length - n + 1 else 0) ∧
    ((createNgrams tokens n).dedup.map
      (fun g => (createNgrams tokens n).count g)).sum = (createNgrams tokens n).length ∧
    (scoreNgrams (createNgrams tokens n) (createNgrams tokens2 n)).«recall» =
      (((createNgrams tokens n).dedup.map
        (fun g => min ((createNgrams tokens n).count g)
          ((createNgrams tokens2 n).count g))).sum : ℚ) /
        ((max (createNgrams tokens n).length 1 : ℕ) : ℚ) ∧
    (scoreNgrams (createNgrams tokens n) (createNgrams tokens2 n)).precision =
      (((createNgrams tokens n).dedup.map
        (fun g => min ((createNgrams tokens n).count g)
          ((createNgrams tokens2 n).count g))).sum : ℚ) /
        ((max (createNgrams tokens2 n).length 1 : ℕ) : ℚ) := by
  refine ⟨?_, sum_map_count_dedup_len _, ?_, ?_⟩
  · rw [createNgrams, List.length_map, List.length_range]
    split
    · omega
    · omega
  · simp only [scoreNgrams]
    rw [sum_map_count_dedup_len]
  · simp only [scoreNgrams]
    rw [sum_map_count_dedup_len]

/-- Witness for C10: window count of a 3-token sequence with `n = 2`. -/
theorem create_ngrams_totals_witness :
    (createNgrams ["a", "b", "c"] 2).length =
      if 2 ≤ (["a", "b", "c"] : List Token).length then
        (["a", "b", "c"] : List Token).length - 2 + 1
      else 0 :=
  (create_ngrams_totals ["a", "b", "c"] ["x"] 2 (by decide)).1

/-- C8: every scorer yields `Score(0,0,0)` on an empty target or prediction
side (short-circuit for the LCS scorers, clamped divisors for the n-gram
scorer), and the summary-level scorer likewise on empty sentence lists or
zero total token counts. -/
theorem empty_input_zero_score (t p : List Token) (rs cs : List (List Token))
    (n : ℕ) (h : 1 ≤ n) :
    scoreLcs [] p = ⟨0, 0, 0⟩ ∧
    scoreLcs t [] = ⟨0, 0, 0⟩ ∧
    createNgrams [] n = [] ∧
    scoreNgrams [] (createNgrams p n) = ⟨0, 0, 0⟩ ∧
    scoreNgrams (createNgrams t n) [] = ⟨0, 0, 0⟩ ∧
    summaryLevelLcs [] cs = ⟨0, 0, 0⟩ ∧
    summaryLevelLcs rs [] = ⟨0, 0, 0⟩ ∧
    ((rs.map List.length).sum = 0 → summaryLevelLcs rs cs = ⟨0, 0, 0⟩) ∧
    ((cs.map List.length).sum = 0 → summaryLevelLcs rs cs = ⟨0, 0, 0⟩) := by
  refine ⟨?_, ?_, ?_, ?_, ?_, ?_, ?_, ?_, ?_⟩
  · rw [scoreLcs, if_pos (Or.inl rfl)]
  · rw [scoreLcs, if_pos (Or.inr rfl)]
  · have h1 : ([] : List Token).length + 1 - n = 0 := by simp; omega
    rw [createNgrams, h1]
    rfl
  · simp [scoreNgrams, fmeasure]
  · have hz : (((createNgrams t n).dedup.map
        (fun g => min ((createNgrams t n).count g) (List.count g []))).sum) = 0 :=
      List.sum_eq_zero (by simp)
    simp [scoreNgrams, fmeasure, hz]
  · rw [summaryLevelLcs, if_pos (Or.inl rfl)]
  · rw [summaryLevelLcs, if_pos (Or.inr rfl)]
  · intro hm
    rw [summaryLevelLcs]
    split
    · rfl
    · rw [if_pos (Or.inr hm)]
  · intro hn
    rw [summaryLevelLcs]
    split
    · rfl
    · rw [if_pos (Or.inl hn)]

/-- Witness for C8 at concrete inputs. -/
theorem empty_input_zero_score_witness :
    scoreLcs [] ["x"] = ⟨0, 0, 0⟩ :=
  (empty_input_zero_score ["y"] ["x"] [["y"]] [["x"]] 1 (by decide)).1

theorem countHits_thread (l : List Token) :
    ∀ cc cr : List Token,
      (countHits l cc cr).1 + (countHits l cc cr).2.1.length = cc.length ∧
      (countHits l cc cr).1 + (countHits l cc cr).2.2.length = cr.length := by
  induction l with
  | nil => intro cc cr; simp [countHits]
  | cons t ts ih =>
    intro cc cr
    rw [countHits]
    by_cases hc : 0 < cc.count t ∧ 0 < cr.count t
    · rw [if_pos hc]
      obtain ⟨h1, h2⟩ := ih (cc.erase t) (cr.erase t)
      have hmc : t ∈ cc := List.count_pos_iff.1 hc.1
      have hmr : t ∈ cr := List.count_pos_iff.1 hc.2
      rw [List.length_erase_of_mem hmc] at h1
      rw [List.length_erase_of_mem hmr] at h2
      have hlc : 0 < cc.length := List.length_pos_of_mem hmc
      have hlr : 0 < cr.length := List.length_pos_of_mem hmr
      constructor
      · simp only []
        omega
      · simp only []
        omega
    · rw [if_neg hc]
      exact ih cc cr

theorem outerHits_thread (ls : List (List Token)) :
    ∀ cc cr : List Token,
      (outerHits ls cc cr).1 + (outerHits ls cc cr).2.1.length = cc.length ∧
      (outerHits ls cc cr).1 + (outerHits ls cc cr).2.2.length = cr.length := by
  induction ls with
  | nil => intro cc cr; simp [outerHits]
  | cons l ls ih =>
    intro cc cr
    rw [outerHits]
    obtain ⟨hc1, hc2⟩ := countHits_thread l cc cr
    obtain ⟨ho1, ho2⟩ := ih (countHits l cc cr).2.1 (countHits l cc cr).2.2
    constructor
    · simp only []
      omega
    · simp only []
      omega

/-- C9: the summary-level hit count never exceeds the smaller of the total
reference token count and the total candidate token count, hence the
summary-level precision and recall are each at most 1. -/
theorem summary_hits_bound (ref_sent can_sent : List (List Token)) :
    (outerHits (ref_sent.map (fun r => unionLcs r can_sent))
        can_sent.flatten ref_sent.flatten).1 ≤
      min ((ref_sent.map List.length).sum) ((can_sent.map List.length).sum) ∧
    (summaryLevelLcs ref_sent can_sent).precision ≤ 1 ∧
    (summaryLevelLcs ref_sent can_sent).«recall» ≤ 1 := by
  have hb := outerHits_thread (ref_sent.map (fun r => unionLcs r can_sent))
    can_sent.flatten ref_sent.flatten
  have hc : (outerHits (ref_sent.map (fun r => unionLcs r can_sent))
      can_sent.flatten ref_sent.flatten).1 ≤ (can_sent.map List.length).sum := by
    have := hb.1
    have hl : can_sent.flatten.length = (can_sent.map List.length).sum :=
      List.length_flatten can_sent
    omega
  have hr : (outerHits (ref_sent.map (fun r => unionLcs r can_sent))
      can_sent.flatten ref_sent.flatten).1 ≤ (ref_sent.map List.length).sum := by
    have := hb.2
    have hl : ref_sent.flatten.length = (ref_sent.map List.length).sum :=
      List.length_flatten ref_sent
    omega
  refine ⟨le_min hr hc, ?_⟩
  simp only [summaryLevelLcs]
  split
  · norm_num
  · split
    · norm_num
    · rename_i hne hz
      push_neg at hz
      obtain ⟨hzn, hzm⟩ := hz
      constructor
      · show ((outerHits (ref_sent.map (fun r => unionLcs r can_sent))
            can_sent.flatten ref_sent.flatten).1 : ℚ) /
            (((can_sent.map List.length).sum : ℕ) : ℚ) ≤ 1
        rw [div_le_one (by exact_mod_cast Nat.pos_of_ne_zero hzn)]
        exact_mod_cast hc
      · show ((outerHits (ref_sent.map (fun r => unionLcs r can_sent))
            can_sent.flatten ref_sent.flatten).1 : ℚ) /
            (((ref_sent.map List.length).sum : ℕ) : ℚ) ≤ 1
        rw [div_le_one (by exact_mod_cast Nat.pos_of_ne_zero hzm)]
        exact_mod_cast hr

theorem findUnion_eq_sort (L : List (List ℕ)) :
    findUnion L = Finset.sort (· ≤ ·) ((L.map List.toFinset).foldr (· ∪ ·) ∅) := by
  have hmem : ∀ a : ℕ, a ∈ (L.map List.toFinset).foldr (· ∪ ·) ∅ ↔ a ∈ L.flatten := by
    intro a
    induction L with
    | nil => simp
    | cons l ls ih => simp [ih]
  have hnd : (findUnion L).Nodup :=
    (List.perm_insertionSort (· ≤ ·) _).nodup_iff.2 (List.nodup_dedup _)
  have hsorted : (findUnion L).Sorted (· ≤ ·) := List.sorted_insertionSort _ _
  have hfin : (L.map List.toFinset).foldr (· ∪ ·) ∅ = (findUnion L).toFinset := by
    ext a
    rw [hmem a, List.mem_toFinset, findUnion, List.mem_insertionSort, List.mem_dedup]
  rw [hfin]
  exact ((List.toFinset_sort (· ≤ ·) hnd).2 hsorted).symm

theorem unionLcs_eq_spec (ref : List Token) (c_list : List (List Token)) :
    unionLcs ref c_list = specUnionLcs ref c_list := by
  rw [unionLcs, specUnionLcs, specUnionIndices, findUnion_eq_sort, List.map_map]
  rfl

theorem countHits_eq_specBudgetHits (l : List Token) :
    ∀ cc cr : List Token,
      (countHits l cc cr).1 =
        specBudgetHits l (fun x => cc.count x) (fun x => cr.count x) := by
  induction l with
  | nil => intro cc cr; rfl
  | cons t ts ih =>
    intro cc cr
    rw [countHits, specBudgetHits]
    by_cases hc : 0 < cc.count t ∧ 0 < cr.count t
    · rw [if_pos hc, if_pos hc]
      have hfc : (fun x => (cc.erase t).count x) =
          (fun x => if x = t then cc.count t - 1 else cc.count x) := by
        funext x
        by_cases hx : x = t
        · subst hx; simp [List.count_erase_self]
        · simp [hx, List.count_erase_of_ne hx]
      have hfr : (fun x => (cr.erase t).count x) =
          (fun x => if x = t then cr.count t - 1 else cr.count x) := by
        funext x
        by_cases hx : x = t
        · subst hx; simp [List.count_erase_self]
        · simp [hx, List.count_erase_of_ne hx]
      show (countHits ts (cc.erase t) (cr.erase t)).1 + 1 = _
      rw [ih (cc.erase t) (cr.erase t), hfc, hfr]
    · rw [if_neg hc, if_neg hc]
      exact ih cc cr

theorem countHits_append (l1 l2 : List Token) :
    ∀ cc cr : List Token,
      countHits (l1 ++ l2) cc cr =
        ((countHits l1 cc cr).1 +
          (countHits l2 (countHits l1 cc cr).2.1 (countHits l1 cc cr).2.2).1,
         (countHits l2 (countHits l1 cc cr).2.1 (countHits l1 cc cr).2.2).2) := by
  induction l1 with
  | nil => intro cc cr; simp [countHits]
  | cons t ts ih =>
    intro cc cr
    rw [List.cons_append]
    by_cases hc : 0 < cc.count t ∧ 0 < cr.count t
    · simp only [countHits, if_pos hc, ih (cc.erase t) (cr.erase t), Prod.mk.injEq]
      exact ⟨by omega, trivial⟩
    · simp only [countHits, if_neg hc]
      exact ih cc cr

theorem outerHits_eq_countHits_flatten (ls : List (List Token)) :
    ∀ cc cr : List Token, outerHits ls cc cr = countHits ls.flatten cc cr := by
  induction ls with
  | nil => intro cc cr; rfl
  | cons l ls ih =>
    intro cc cr
    rw [outerHits, List.flatten_cons, countHits_append, ih]

/-- C1: for non-empty sentence lists with nonzero total token counts on both
sides, the summary-level scorer computes exactly the spec's algorithm: shared
frequency budgets over all reference and all candidate tokens, per-reference
union LCS (tokens at the sorted duplicate-free union of the per-candidate LCS
index sets), a hit per token only while both budgets are positive (decrementing
both), recall = hits / total reference tokens, precision = hits / total
candidate tokens, fmeasure per the harmonic rule. -/
theorem summary_level_lcs_spec (ref_sent can_sent : List (List Token))
    (h1 : ref_sent ≠ []) (h2 : can_sent ≠ [])
    (hm : ref_sent.flatten.length ≠ 0) (hn : can_sent.flatten.length ≠ 0) :
    summaryLevelLcs ref_sent can_sent =
      ⟨(specSummaryHits ref_sent can_sent : ℚ) / (can_sent.flatten.length : ℚ),
       (specSummaryHits ref_sent can_sent : ℚ) / (ref_sent.flatten.length : ℚ),
       fmeasure
         ((specSummaryHits ref_sent can_sent : ℚ) / (can_sent.flatten.length : ℚ))
         ((specSummaryHits ref_sent can_sent : ℚ) / (ref_sent.flatten.length : ℚ))⟩ := by
  have hm' : (ref_sent.map List.length).sum ≠ 0 := by
    rw [← List.length_flatten]; exact hm
  have hn' : (can_sent.map List.length).sum ≠ 0 := by
    rw [← List.length_flatten]; exact hn
  have hhits : (outerHits (ref_sent.map (fun r => unionLcs r can_sent))
      can_sent.flatten ref_sent.flatten).1 = specSummaryHits ref_sent can_sent := by
    rw [outerHits_eq_countHits_flatten, countHits_eq_specBudgetHits, specSummaryHits]
    congr 1
    congr 1
    exact List.map_congr_left (fun r _ => unionLcs_eq_spec r can_sent)
  simp only [summaryLevelLcs]
  rw [if_neg (by tauto), if_neg (by tauto), hhits]
  congr 2 <;> rw [List.length_flatten]

/-- Witness for C1 at the spec's own scenario: two reference sentences
`[[a,b],[b,c]]` against one candidate sentence `[[b]]`. -/
theorem summary_level_lcs_spec_witness :
    summaryLevelLcs [["a", "b"], ["b", "c"]] [["b"]] =
      ⟨(specSummaryHits [["a", "b"], ["b", "c"]] [["b"]] : ℚ) /
          (([["b"]] : List (List Token)).flatten.length : ℚ),
       (specSummaryHits [["a", "b"], ["b", "c"]] [["b"]] : ℚ) /
          (([["a", "b"], ["b", "c"]] : List (List Token)).flatten.length : ℚ),
       fmeasure
         ((specSummaryHits [["a", "b"], ["b", "c"]] [["b"]] : ℚ) /
           (([["b"]] : List (List Token)).flatten.length : ℚ))
         ((specSummaryHits [["a", "b"], ["b", "c"]] [["b"]] : ℚ) /
           (([["a", "b"], ["b", "c"]] : List (List Token)).flatten.length : ℚ))⟩ :=
  summary_level_lcs_spec [["a", "b"], ["b", "c"]] [["b"]]
    (by decide) (by decide) (by decide) (by decide)

theorem computeRougeType_error
    (tokWrap : Option (String → List Token) → String → List Token)
    (target prediction : String) (tt pt : List Token) (rt : String)
    (h : ¬(rt = "rougeL" ∨ rt = "rougeLsum" ∨
      (matchRougeN rt = true ∧ 1 ≤ rougeNVal rt))) :
    ∃ e, computeRougeType tokWrap target prediction tt pt rt = .error e := by
  push_neg at h
  obtain ⟨hL, hS, hN⟩ := h
  rw [computeRougeType, if_neg hL, if_neg hS]
  by_cases hmv : matchRougeN rt = true
  · have hz : rougeNVal rt = 0 := by have := hN hmv; omega
    rw [if_pos hmv, if_pos (by omega)]
    exact ⟨_, rfl⟩
  · rw [if_neg hmv]
    exact ⟨_, rfl⟩

theorem scoreLoop_error
    (tokWrap : Option (String → List Token) → String → List Token)
    (target prediction : String) (tt pt : List Token) :
    ∀ (rts : List String) (rt : String), rt ∈ rts →
      ¬(rt = "rougeL" ∨ rt = "rougeLsum" ∨
        (matchRougeN rt = true ∧ 1 ≤ rougeNVal rt)) →
      ∃ e, scoreLoop tokWrap target prediction tt pt rts = .error e := by
  intro rts
  induction rts with
  | nil => intro rt h; cases h
  | cons r rs ih =>
    intro rt hmem hinv
    rw [scoreLoop]
    rcases List.mem_cons.1 hmem with rfl | hmem'
    · obtain ⟨e, he⟩ := computeRougeType_error tokWrap target prediction tt pt rt hinv
      rw [he]
      exact ⟨e, rfl⟩
    · cases hcase : computeRougeType tokWrap target prediction tt pt r with
      | error e => exact ⟨e, rfl⟩
      | ok s =>
        obtain ⟨e, he⟩ := ih rt hmem' hinv
        show ∃ e2, (match scoreLoop tokWrap target prediction tt pt rs with
          | Except.error e => Except.error e
          | Except.ok r2 => Except.ok ((r, s) :: r2)) = Except.error e2
        rw [he]
        exact ⟨e, rfl⟩

/-- C7: a requested variant that is neither `rougeL`, `rougeLsum`, nor an
accepted `rougeN` form with positive `n` makes `score` fail with a raised
error: the whole call returns `Except.error`, so no partial result map is
produced. -/
theorem invalid_variant_error
    (tokWrap : Option (String → List Token) → String → List Token)
    (tokenizer : Option (String → List Token))
    (rouge_types : List String) (target prediction : String) (rt : String)
    (hmem : rt ∈ rouge_types)
    (hinv : ¬(rt = "rougeL" ∨ rt = "rougeLsum" ∨
      (matchRougeN rt = true ∧ 1 ≤ rougeNVal rt))) :
    ∃ e, score tokWrap tokenizer rouge_types target prediction = .error e := by
  rw [score]
  exact scoreLoop_error tokWrap target prediction _ _ rouge_types rt hmem hinv

/-- Witness for C7: `rougeX` after a valid variant still aborts the call. -/
theorem invalid_variant_error_witness :
    ∃ e, score (fun _ s => [s]) none ["rouge1", "rougeX"] "a" "b" = .error e :=
  invalid_variant_error (fun _ s => [s]) none ["rouge1", "rougeX"] "a" "b" "rougeX"
    (by decide) (by decide)

/-- C5 counterexample: `rouge10` — "rouge" followed by the positive integer
10 — is rejected as an invalid variant instead of being dispatched with
`n = 10`, because the variant pattern accepts a single digit only. -/
theorem rouge_variant_multidigit_counterexample :
    score (fun _ s => [s]) none ["rouge10"] "a" "b" =
      .error "Invalid rouge type: rouge10" := by
  simp +decide [score, scoreLoop, computeRougeType, matchRougeN]

/-- C5 amended: every variant name accepted by the single-digit pattern
`rouge[0-9]$` with digit value at least 1 is dispatched to n-gram scoring
with `n` equal to that digit. -/
theorem rouge_variant_single_digit
    (tokWrap : Option (String → List Token) → String → List Token)
    (tokenizer : Option (String → List Token)) (target prediction : String)
    (rt : String) (hmatch : matchRougeN rt = true) (hpos : 1 ≤ rougeNVal rt) :
    score tokWrap tokenizer [rt] target prediction =
      .ok [(rt, scoreNgrams
        (createNgrams (tokWrap tokenizer target) (rougeNVal rt))
        (createNgrams (tokWrap tokenizer prediction) (rougeNVal rt)))] := by
  have hL : rt ≠ "rougeL" := by
    intro h
    rw [h] at hmatch
    exact absurd hmatch (by decide)
  have hS : rt ≠ "rougeLsum" := by
    intro h
    rw [h] at hmatch
    exact absurd hmatch (by decide)
  rw [score, scoreLoop, computeRougeType, if_neg hL, if_neg hS, if_pos hmatch,
    if_neg (by omega)]
  rfl

/-- Witness for C5's amended claim at `rouge2`. -/
theorem rouge_variant_single_digit_witness :
    score (fun _ s => [s]) none ["rouge2"] "a" "b" =
      .ok [("rouge2", scoreNgrams
        (createNgrams ["a"] (rougeNVal "rouge2"))
        (createNgrams ["b"] (rougeNVal "rouge2")))] :=
  rouge_variant_single_digit (fun _ s => [s]) none "a" "b" "rouge2"
    (by decide) (by decide)

theorem splitLines_ne_nil (l : List Char) : splitLines l ≠ [] := by
  cases l with
  | nil => simp [splitLines]
  | cons c cs =>
    rw [splitLines]
    by_cases h : c = '\n'
    · simp [h]
    · rw [if_neg h]
      cases splitLines cs <;> simp

theorem intercalate_cons_first (sep : List Char) (c : Char) (x : List Char)
    (xs : List (List Char)) :
    List.intercalate sep ((c :: x) :: xs) = c :: List.intercalate sep (x :: xs) := by
  cases xs <;> simp [List.intercalate]

theorem intercalate_nil_cons (sep : List Char) (x : List Char) (xs : List (List Char)) :
    List.intercalate sep ([] :: x :: xs) = sep ++ List.intercalate sep (x :: xs) := by
  simp [List.intercalate]

theorem splitLines_intercalate : ∀ l : List Char,
    List.intercalate ['\n'] (splitLines l) = l := by
  intro l
  induction l with
  | nil => simp [splitLines, List.intercalate]
  | cons c cs ih =>
    rw [splitLines]
    by_cases h : c = '\n'
    · rw [if_pos h]
      cases hsp : splitLines cs with
      | nil => exact absurd hsp (splitLines_ne_nil cs)
      | cons x xs =>
        rw [hsp] at ih
        rw [intercalate_nil_cons, ih, h]
        rfl
    · rw [if_neg h]
      cases hsp : splitLines cs with
      | nil => exact absurd hsp (splitLines_ne_nil cs)
      | cons x xs =>
        rw [hsp] at ih
        rw [intercalate_cons_first, ih]

theorem splitLines_no_newline : ∀ l : List Char, ∀ part ∈ splitLines l, '\n' ∉ part := by
  intro l
  induction l with
  | nil =>
    intro part hp
    simp [splitLines] at hp
    simp [hp]
  | cons c cs ih =>
    intro part hp
    rw [splitLines] at hp
    by_cases h : c = '\n'
    · rw [if_pos h] at hp
      rcases List.mem_cons.1 hp with rfl | hp'
      · simp
      · exact ih part hp'
    · rw [if_neg h] at hp
      cases hsp : splitLines cs with
      | nil =>
        rw [hsp] at hp
        simp at hp
        subst hp
        simp [h]
        intro hcontra
        exact h hcontra.symm
      | cons x xs =>
        rw [hsp] at hp
        rcases List.mem_cons.1 hp with rfl | hp'
        · intro hmem
          rcases List.mem_cons.1 hmem with hc | hx
          · exact h hc.symm
          · exact ih x (hsp ▸ List.mem_cons_self x xs) hx
        · exact ih part (hsp ▸ List.mem_cons.2 (Or.inr hp'))

/-- The counterexample wrapper for C6: uses the configured tokenizer when one
is passed, and a one-token-per-sentence fallback when none is passed. -/
def cexTokWrap : Option (String → List Token) → String → List Token
  | some f, s => f s
  | none, s => [s]

/-- The counterexample configured tokenizer for C6: returns no tokens. -/
def cexTokenizer : Option (String → List Token) :=
  some (fun _ => [])

/-- C6 amended: for `rougeLsum`, `score` splits each input text at newlines,
drops empty lines, tokenizes each sentence independently through the
tokenization wrapper with NO tokenizer argument (the wrapper's default path —
the tokenizer configured at construction is not passed along), and scores the
two sentence-token lists with the summary-level union-LCS scorer.  The
splitter is characterized by: rejoining the parts with a newline restores the
text, no part contains a newline, and every kept sentence is non-empty. -/
theorem rougeLsum_dispatch
    (tokWrap : Option (String → List Token) → String → List Token)
    (tokenizer : Option (String → List Token)) (target prediction : String) :
    score tokWrap tokenizer ["rougeLsum"] target prediction =
      .ok [("rougeLsum", summaryLevelLcs
        ((getSents target).map (fun s => tokWrap none s))
        ((getSents prediction).map (fun s => tokWrap none s)))] ∧
    (∀ text : String, List.intercalate ['\n'] (splitLines text.data) = text.data) ∧
    (∀ text : String, ∀ part ∈ splitLines text.data, '\n' ∉ part) ∧
    (∀ text : String, ∀ s ∈ getSents text, s.length ≠ 0) := by
  refine ⟨?_, fun text => splitLines_intercalate text.data,
    fun text => splitLines_no_newline text.data, fun text s hs => ?_⟩
  · rw [score, scoreLoop, computeRougeType, if_neg (by decide), if_pos rfl]
    rfl
  · exact of_decide_eq_true (List.mem_filter.1 hs).2

/-- Witness for C6's amended claim: a concrete kept sentence contains no
newline and is non-empty. -/
theorem rougeLsum_dispatch_witness :
    '\n' ∉ (['a'] : List Char) :=
  (rougeLsum_dispatch (fun _ s => [s]) none "x" "y").2.2.1 "a" ['a'] (by decide)

/-- C6 counterexample: with `cexTokWrap` and the configured `cexTokenizer`
(which returns no tokens), `score` on `rougeLsum` gives a perfect score for
identical one-sentence texts, while tokenizing the sentences with the
configured tokenizer would give `Score(0,0,0)`: the sentences are therefore
not tokenized via the tokenizer configured at construction. -/
theorem rougeLsum_tokenizer_counterexample :
    score cexTokWrap cexTokenizer ["rougeLsum"] "a" "a" =
      .ok [("rougeLsum", ⟨1, 1, 1⟩)] ∧
    summaryLevelLcs ((getSents "a").map (fun s => cexTokWrap cexTokenizer s))
        ((getSents "a").map (fun s => cexTokWrap cexTokenizer s)) = ⟨0, 0, 0⟩ ∧
    score cexTokWrap cexTokenizer ["rougeLsum"] "a" "a" ≠
      .ok [("rougeLsum", summaryLevelLcs
        ((getSents "a").map (fun s => cexTokWrap cexTokenizer s))
        ((getSents "a").map (fun s => cexTokWrap cexTokenizer s)))] := by
  have h1 : score cexTokWrap cexTokenizer ["rougeLsum"] "a" "a" =
      .ok [("rougeLsum", ⟨1, 1, 1⟩)] := by
    simp +decide [score, scoreLoop, computeRougeType, getSents, splitLines,
      summaryLevelLcs, unionLcs, lcsInd, backtrackNorec, backtrackFuel, lcsTable,
      lcsTableFuel, findUnion, outerHits, countHits, fmeasure, List.insertionSort,
      List.orderedInsert, cexTokWrap, cexTokenizer]
    norm_num
  have h2 : summaryLevelLcs ((getSents "a").map (fun s => cexTokWrap cexTokenizer s))
      ((getSents "a").map (fun s => cexTokWrap cexTokenizer s)) = ⟨0, 0, 0⟩ := by
    simp +decide [getSents, splitLines, summaryLevelLcs, cexTokWrap, cexTokenizer]
  refine ⟨h1, h2, ?_⟩
  rw [h1, h2]
  intro hcontra
  simp [Score.mk.injEq] at hcontra
